import Mathlib

/-!
Shallow embedding of the training-plan tracker (`src/app.py`): the
session-text distance parser, calendar alignment, cell-key derivation,
aggregation loop, persistence envelope and the persisted-state
collection loop, together with theorems settling the frozen claims.

Modelling conventions:
* Python strings are `List Char` (`Str`); `str.lower`, `str.strip`,
  `in` (substring), `split` are modelled character-wise on ASCII, the
  alphabet the program's keywords and regexes actually use.
* Dates are integers counting days from an (arbitrary) fixed Monday, so
  Python's `date.weekday()` (Mon=0..Sun=6) is `d % 7` and
  `timedelta(days=k)` is `+ k`.
* Floats are modelled as rationals `ℚ`.
* JSON documents are the inductive `Json`; Python dicts appear as
  association lists.  A raw state file is `Option Json`: `none` stands
  for an unreadable or non-JSON file.
-/

abbrev Str := List Char

/-- ASCII whitespace, the characters matched by Python's `\s` and
stripped by `str.strip()` on the program's inputs. -/
def isSpace (c : Char) : Bool :=
  c = ' ' || c = '\t' || c = '\n' || c = '\r' || c = '\x0b' || c = '\x0c'

/-- Python `str.lower()` (ASCII range, which is all the code relies on). -/
def lowerStr (s : Str) : Str := s.map Char.toLower

/-- Python `str.strip()`. -/
def stripStr (s : Str) : Str :=
  ((s.dropWhile isSpace).reverse.dropWhile isSpace).reverse

/-- Python `pat in s` substring containment. -/
def strContains (s pat : Str) : Bool :=
  match s with
  | [] => pat.isPrefixOf []
  | _ :: rest => pat.isPrefixOf s || strContains rest pat

/-- Python `re.split(r"\+", text)`: split at every literal `+`. -/
def splitPlus : Str → List Str
  | [] => [[]]
  | c :: rest =>
    let r := splitPlus rest
    if c = '+' then [] :: r
    else
      match r with
      | [] => [[c]]
      | h :: t => (c :: h) :: t

/-! ### Calendar alignment (`align_to_monday`, week-start derivation) -/

/-- `align_to_monday` from the source: `offset = (7 - day.weekday()) % 7;
return day + timedelta(days=offset)`. -/
def align_to_monday (day : ℤ) : ℤ :=
  day + (7 - day % 7) % 7

/-- The week-start derivation of the source: `base_start =
align_to_monday(raw_week_starts[0]); week_starts = [base_start +
timedelta(days=7 * idx) for idx in range(len(plan_df))]`. -/
def derive_week_starts (raws : List ℤ) : List ℤ :=
  (List.range raws.length).map (fun i : ℕ => align_to_monday (raws.headD 0) + 7 * (i : ℤ))

/-! ### Numeric extraction (`extract_km`) -/

/-- Numeric value of a run of ASCII digit characters (decimal). -/
def natOfDigits (l : Str) : ℕ :=
  l.foldl (fun a c => 10 * a + (c.toNat - 48)) 0

/-- Value of the fractional digit run `l` of `<int>.<l>`. -/
def fracOfDigits (l : Str) : ℚ :=
  (natOfDigits l : ℚ) / 10 ^ l.length

/-- Match the optional regex fragment `(?:\.\d+)?` at the head of `r`:
the fractional value contributed and the rest.  The group matches
exactly when a `.` followed by at least one digit is present. -/
def matchFrac (r : Str) : ℚ × Str :=
  match r with
  | [] => (0, [])
  | c :: r2 =>
    if c = '.' then
      if (r2.takeWhile Char.isDigit).isEmpty then (0, c :: r2)
      else (fracOfDigits (r2.takeWhile Char.isDigit), r2.dropWhile Char.isDigit)
    else (0, c :: r2)

/-- Match the regex fragment `\d+(?:\.\d+)?` at the head of `s`,
returning the numeric value of the match and the rest of the string.
The greedy strategy needs no backtracking for this fragment: after a
maximal digit run the next character is not a digit, so no shorter run
can help a failing continuation. -/
def matchNumber (s : Str) : Option (ℚ × Str) :=
  if (s.takeWhile Char.isDigit).isEmpty then none
  else
    let fr := matchFrac (s.dropWhile Char.isDigit)
    some ((natOfDigits (s.takeWhile Char.isDigit) : ℚ) + fr.1, fr.2)

/-- Attempt the range regex `(\d+(?:\.\d+)?)\s*-\s*(\d+(?:\.\d+)?)\s*km`
at the head of `s`, returning the two captured numbers. -/
def matchRangeAt (s : Str) : Option (ℚ × ℚ) :=
  match matchNumber s with
  | none => none
  | some (lo, r1) =>
    match r1.dropWhile isSpace with
    | [] => none
    | c :: r3 =>
      if c = '-' then
        match matchNumber (r3.dropWhile isSpace) with
        | none => none
        | some (hi, r5) =>
          if ['k', 'm'].isPrefixOf (r5.dropWhile isSpace) then some (lo, hi)
          else none
      else none

/-- `re.search` for the range pattern: try each start position left to
right and return the leftmost match's captures. -/
def rangeSearch : Str → Option (ℚ × ℚ)
  | [] => none
  | c :: rest =>
    match matchRangeAt (c :: rest) with
    | some p => some p
    | none => rangeSearch rest

/-- Attempt the regex `(\d+(?:\.\d+)?)\s*km` at the head of `s`,
returning the captured number and the rest after the match. -/
def matchKmAt (s : Str) : Option (ℚ × Str) :=
  match matchNumber s with
  | none => none
  | some (v, r1) =>
    match r1.dropWhile isSpace with
    | [] => none
    | c :: r2 =>
      match r2 with
      | [] => none
      | d :: r =>
        if c = 'k' ∧ d = 'm' then some (v, r) else none

theorem dropWhile_length_le (p : Char → Bool) (s : Str) :
    (s.dropWhile p).length ≤ s.length := by
  induction s with
  | nil => simp [List.dropWhile]
  | cons c rest ih =>
    by_cases h : p c <;> simp [List.dropWhile, h] <;> omega

theorem matchFrac_length (r : Str) : (matchFrac r).2.length ≤ r.length := by
  match r with
  | [] => simp [matchFrac]
  | c :: r2 =>
    by_cases hc : c = '.'
    · by_cases hfs : (r2.takeWhile Char.isDigit).isEmpty
      · simp [matchFrac, hc, hfs]
      · simp only [matchFrac, hc, hfs, if_true, Bool.false_eq_true, if_false]
        have := dropWhile_length_le Char.isDigit r2
        simp
        omega
    · simp [matchFrac, hc]

theorem matchNumber_length {s : Str} {v : ℚ} {r : Str}
    (h : matchNumber s = some (v, r)) : r.length < s.length := by
  unfold matchNumber at h
  by_cases hds : (s.takeWhile Char.isDigit).isEmpty
  · simp [hds] at h
  · simp only [hds, Bool.false_eq_true, if_false, Option.some.injEq, Prod.mk.injEq] at h
    have hsplit : (s.takeWhile Char.isDigit).length + (s.dropWhile Char.isDigit).length
        = s.length := by
      have hcat : s.takeWhile Char.isDigit ++ s.dropWhile Char.isDigit = s :=
        List.takeWhile_append_dropWhile Char.isDigit s
      have hlen := List.length_append (s.takeWhile Char.isDigit) (s.dropWhile Char.isDigit)
      rw [hcat] at hlen
      omega
    have hne : (s.takeWhile Char.isDigit).length ≠ 0 := by
      simpa [List.isEmpty_iff, List.length_eq_zero] using hds
    have hfr := matchFrac_length (s.dropWhile Char.isDigit)
    have hr : r = (matchFrac (s.dropWhile Char.isDigit)).2 := h.2.symm
    rw [hr]
    omega

theorem matchKmAt_length {s : Str} {v : ℚ} {r : Str}
    (h : matchKmAt s = some (v, r)) : r.length < s.length := by
  unfold matchKmAt at h
  split at h
  · simp at h
  next v1 r1 hn =>
    have h1 : r1.length < s.length := matchNumber_length hn
    have h2 : (r1.dropWhile isSpace).length ≤ r1.length := dropWhile_length_le _ _
    split at h
    · simp at h
    next c r2 hd =>
      split at h
      · simp at h
      next d r3 =>
        split at h
        · simp only [Option.some.injEq, Prod.mk.injEq] at h
          rw [hd] at h2
          simp at h2
          rw [← h.2]
          omega
        · simp at h

/-- `re.findall(r"(\d+(?:\.\d+)?)\s*km", segment)`: collect the numbers
of all non-overlapping matches, scanning left to right and resuming
after each match. -/
def findKm (s : Str) : List ℚ :=
  match s with
  | [] => []
  | c :: rest =>
    match h : matchKmAt (c :: rest) with
    | some (v, r) => v :: findKm r
    | none => findKm rest
termination_by s.length
decreasing_by
  · exact matchKmAt_length h
  · simp

/-- `extract_km` from the source: mean of the bounds of the leftmost
range match if any, else the sum of all `<number>km` matches. -/
def extract_km (s : Str) : ℚ :=
  match rangeSearch s with
  | some (lo, hi) => (lo + hi) / 2
  | none => (findKm s).sum

/-! ### Session parsing (`session_distances`) -/

/-- `SWIM_DISTANCE_KM = 2.0` from the source. -/
def SWIM_DISTANCE_KM : ℚ := 2

/-- Per-discipline distances, the result record of `session_distances`. -/
structure Distances where
  swim : ℚ
  bike : ℚ
  run : ℚ
deriving DecidableEq

/-- The body of the `session_distances` loop for one raw segment:
strip, skip if blank, then test the three discipline keywords
independently. -/
def sdStep (acc : Distances) (rawSeg : Str) : Distances :=
  let seg := stripStr rawSeg
  if seg.isEmpty then acc
  else
    let acc1 :=
      if strContains seg ("swim".data) then
        { acc with swim := acc.swim + SWIM_DISTANCE_KM }
      else acc
    let acc2 :=
      if strContains seg ("bike".data) || strContains seg ("cycle".data) then
        { acc1 with bike := acc1.bike + extract_km seg }
      else acc1
    if strContains seg ("run".data) then
      { acc2 with run := acc2.run + extract_km seg }
    else acc2

/-- `session_distances` from the source: lowercase, split on `+`, run
the loop body over the segments starting from the all-zero record. -/
def session_distances (session_text : Str) : Distances :=
  (splitPlus (lowerStr session_text)).foldl sdStep ⟨0, 0, 0⟩

/-- The non-blank stripped segments of a list of raw split parts: the
segments the parser's loop actually processes. -/
def activeSegs (parts : List Str) : List Str :=
  (parts.map stripStr).filter (fun s => !s.isEmpty)

/-- The non-blank stripped segments of a session text, in order. -/
def segmentsOf (t : Str) : List Str :=
  activeSegs (splitPlus (lowerStr t))

/-! ### Cell keys (`completion_key`, `planned_key`) -/

/-- Decimal digit to character, as Python's `str` renders integers. -/
def digitChar : ℕ → Char
  | 0 => '0'
  | 1 => '1'
  | 2 => '2'
  | 3 => '3'
  | 4 => '4'
  | 5 => '5'
  | 6 => '6'
  | 7 => '7'
  | 8 => '8'
  | 9 => '9'
  | _ => '*'

/-- Python `str(n)` for a non-negative integer: canonical decimal,
no leading zeros. -/
def natStr (n : ℕ) : Str :=
  if n = 0 then ['0'] else ((Nat.digits 10 n).map digitChar).reverse

/-- The column-name slug of the source: `session_col.lower().replace(" ", "_")`. -/
def slugOf (col : Str) : Str :=
  (lowerStr col).map (fun c => if c = ' ' then '_' else c)

/-- The common shape of both key functions:
`f"{prefixStr}_{week_idx}_{slug}"`. -/
def cellKey (prefixStr : Str) (week_idx : ℕ) (slug : Str) : Str :=
  prefixStr ++ '_' :: (natStr week_idx ++ '_' :: slug)

/-- `completion_key` from the source. -/
def completion_key (week_idx : ℕ) (session_col : Str) : Str :=
  cellKey ("completed".data) week_idx (slugOf session_col)

/-- `planned_key` from the source. -/
def planned_key (week_idx : ℕ) (session_col : Str) : Str :=
  cellKey ("planned".data) week_idx (slugOf session_col)

/-! ### JSON values and Python truthiness -/

/-- JSON documents; objects and the program's dicts are association
lists in insertion order. -/
inductive Json where
  | null : Json
  | bool : Bool → Json
  | num : ℚ → Json
  | str : Str → Json
  | arr : List Json → Json
  | obj : List (Str × Json) → Json

/-- Python truthiness (`bool(x)`) of a JSON-shaped value. -/
def truthy : Json → Bool
  | Json.null => false
  | Json.bool b => b
  | Json.num q => decide (q ≠ 0)
  | Json.str s => !s.isEmpty
  | Json.arr xs => !xs.isEmpty
  | Json.obj fs => !fs.isEmpty

/-! ### Persistence (`load_state`, `save_state` payload) -/

/-- `STATE_VERSION = 1` from the source. -/
def STATE_VERSION : ℚ := 1

/-- Python `data.get("version") != STATE_VERSION` specialised to the
JSON values a state file can hold: a JSON number equals the int 1 when
its value is 1, and JSON `true` equals 1 because Python `bool` is an
`int` subtype; everything else (including a missing key, i.e. `none`)
compares unequal. -/
def versionMatches (j : Option Json) : Bool :=
  match j with
  | some (Json.num q) => decide (q = STATE_VERSION)
  | some (Json.bool b) => decide ((if b then (1 : ℚ) else 0) = STATE_VERSION)
  | _ => false

/-- `load_state` from the source.  The argument is the raw file:
`none` when the file is missing, unreadable or not valid JSON (the
`OSError` / `JSONDecodeError` handlers and the existence check all
return `{}`), `some doc` when JSON parsing succeeded.  `data.get(...)`
on a non-dict document raises `AttributeError`, which no handler
catches: that is the `Except.error` outcome. -/
def load_state (raw : Option Json) : Except Unit Json :=
  match raw with
  | none => Except.ok (Json.obj [])
  | some data =>
    match data with
    | Json.obj fields =>
      if versionMatches (fields.lookup ("version".data)) then
        Except.ok ((fields.lookup ("state".data)).getD (Json.obj []))
      else Except.ok (Json.obj [])
    | _ => Except.error ()

/-- The payload `save_state` writes: `{"version": STATE_VERSION,
"saved_at": <today ISO>, "state": state}`. -/
def save_payload (todayIso : Str) (state : List (Str × Json)) : Json :=
  Json.obj
    [("version".data, Json.num STATE_VERSION),
     ("saved_at".data, Json.str todayIso),
     ("state".data, Json.obj state)]

/-- Modelled from the spec: the split of the merged persisted-state map
back into the completion and planned-day maps by a
`completed_`/`planned_` key-prefix test (§4.5).  The source restores
the merged map directly into ambient session state, so this split has
no named function under `src/`. -/
def splitState (state : List (Str × Json)) :
    List (Str × Json) × List (Str × Json) :=
  (state.filter (fun kv => ("completed_".data).isPrefixOf kv.1),
   state.filter (fun kv => ("planned_".data).isPrefixOf kv.1))

/-- Deserialization end to end: `load_state` on the raw file, then the
spec's prefix split of the recovered merged map.  A recovered state
value that is not a dict makes the restore loop's `.items()` raise,
hence the error outcome. -/
def deserialize (raw : Option Json) :
    Except Unit (List (Str × Json) × List (Str × Json)) :=
  match load_state raw with
  | Except.error e => Except.error e
  | Except.ok (Json.obj fields) => Except.ok (splitState fields)
  | Except.ok _ => Except.error ()

/-! ### Aggregation (the module-level loop over the plan grid) -/

/-- The statistics the aggregation loop accumulates. -/
structure Stats where
  completed : ℕ
  missed : ℕ
  swim : ℚ
  bike : ℚ
  run : ℚ
  gym : ℕ
deriving DecidableEq

/-- `st.session_state.get(key, default)`. -/
def ssGet (ss : List (Str × Json)) (k : Str) (d : Json) : Json :=
  (ss.lookup k).getD d

/-- The cell text of one row at one session column: `""` when the
column is absent or NaN for that row, else the cell's string. -/
def sessionTextOf (row : List (Str × Str)) (col : Str) : Str :=
  (row.lookup col).getD []

/-- One iteration of the inner aggregation loop body for the cell at
`(week_idx, session_col)`. -/
def aggCell (ss : List (Str × Json)) (today : ℤ) (weekStart : ℤ)
    (week_idx : ℕ) (row : List (Str × Str)) (session_col : Str)
    (st : Stats) : Stats :=
  let session_text := sessionTextOf row session_col
  if truthy (ssGet ss (completion_key week_idx session_col) (Json.bool false)) then
    let d := session_distances session_text
    { completed := st.completed + 1
      missed := st.missed
      swim := st.swim + d.swim
      bike := st.bike + d.bike
      run := st.run + d.run
      gym := if strContains (lowerStr session_text) ("gym".data) then st.gym + 1
             else st.gym }
  else if weekStart + 6 < today then
    { st with missed := st.missed + 1 }
  else st

/-- The module-level aggregation loop: iterate rows (with their index)
and session columns, starting from all-zero statistics.  `weekStarts`
is indexed by the row index exactly as `week_starts[week_idx]`. -/
def aggregate (rows : List (List (Str × Str))) (weekStarts : List ℤ)
    (session_cols : List Str) (ss : List (Str × Json)) (today : ℤ) : Stats :=
  rows.enum.foldl
    (fun st wr =>
      session_cols.foldl
        (fun st col => aggCell ss today (weekStarts.getD wr.1 0) wr.1 wr.2 col st)
        st)
    ⟨0, 0, 0, 0, 0, 0⟩

/-- `plan_progress_pct` from the source, with `plan_days = max(1,
(plan_end - plan_start).days + 1)` computed as in the module body. -/
def plan_progress_pct (plan_start plan_end today : ℤ) : ℚ :=
  if today ≤ plan_start then 0
  else if plan_end ≤ today then 100
  else ((today - plan_start : ℤ) : ℚ) / ((max 1 (plan_end - plan_start + 1) : ℤ) : ℚ) * 100

/-! ### The persisted-state collection loop -/

/-- The loop building `persisted_state` before every save: for each
week index and session column, copy the completion flag (coerced with
`bool(...)`) and the planned-day value from session state when
present. -/
def persisted_state (nWeeks : ℕ) (session_cols : List Str)
    (ss : List (Str × Json)) : List (Str × Json) :=
  (List.range nWeeks).foldl
    (fun acc week_idx =>
      session_cols.foldl
        (fun acc session_col =>
          let ck := completion_key week_idx session_col
          let acc1 :=
            match ss.lookup ck with
            | some v => acc ++ [(ck, Json.bool (truthy v))]
            | none => acc
          let pk := planned_key week_idx session_col
          match ss.lookup pk with
          | some v => acc1 ++ [(pk, v)]
          | none => acc1)
        acc)
    []

/-! ### Claim C5: forward alignment to Monday -/

/-- Claim C5: for every date `d`, `align(d) = d + ((7 - weekday(d)) mod 7)`
with Mon=0..Sun=6 weekday numbering; a Monday is returned unchanged, and
any other day is moved strictly forward — never backward — to the
following Monday (a Monday at most 6 days later). -/
theorem align_to_monday_spec (d : ℤ) :
    align_to_monday d = d + (7 - d % 7) % 7 ∧
    align_to_monday d % 7 = 0 ∧
    (d % 7 = 0 → align_to_monday d = d) ∧
    (d % 7 ≠ 0 → d < align_to_monday d ∧ align_to_monday d ≤ d + 6) := by
  unfold align_to_monday
  omega

/-- Witness for C5 at the concrete non-Monday `d = 3` (a Thursday). -/
theorem align_to_monday_spec_witness :
    (3 : ℤ) % 7 ≠ 0 ∧ (3 : ℤ) < align_to_monday 3 ∧ align_to_monday 3 ≤ 3 + 6 := by
  have h := align_to_monday_spec 3
  have h3 : (3 : ℤ) % 7 ≠ 0 := by decide
  exact ⟨h3, (h.2.2.2 h3).1, (h.2.2.2 h3).2⟩

/-! ### Claim C6: the derived week-start sequence -/

/-- Claim C6: for a plan of `n` rows whose first week-commencing date is
`A`, the derived week-start list has length `n`, its `i`-th element is
`align(A) + 7*i`, consecutive entries differ by exactly 7 days, and the
derivation ignores every week-commencing date after the first. -/
theorem derive_week_starts_spec (A : ℤ) (rest : List ℤ) :
    (derive_week_starts (A :: rest)).length = (A :: rest).length ∧
    (∀ i, i < (A :: rest).length →
      (derive_week_starts (A :: rest)).getD i 0 = align_to_monday A + 7 * (i : ℤ)) ∧
    (∀ i, i + 1 < (A :: rest).length →
      (derive_week_starts (A :: rest)).getD (i + 1) 0
        - (derive_week_starts (A :: rest)).getD i 0 = 7) ∧
    (∀ rest2 : List ℤ, rest2.length = rest.length →
      derive_week_starts (A :: rest2) = derive_week_starts (A :: rest)) := by
  have hget : ∀ i, i < (A :: rest).length →
      (derive_week_starts (A :: rest)).getD i 0 = align_to_monday A + 7 * (i : ℤ) := by
    intro i hi
    unfold derive_week_starts
    rw [List.getD_eq_getElem?_getD, List.getElem?_map, List.getElem?_range hi]
    rfl
  have hlen : (derive_week_starts (A :: rest)).length = (A :: rest).length := by
    unfold derive_week_starts
    rw [List.length_map, List.length_range]
  refine ⟨hlen, hget, ?_, ?_⟩
  · intro i hi
    rw [hget (i + 1) hi, hget i (by omega)]
    push_cast
    ring
  · intro rest2 hlen
    simp [derive_week_starts, hlen]

/-- Witness for C6 on the concrete three-row plan starting Wed `d = 2`
(aligned anchor `7`). -/
theorem derive_week_starts_spec_witness :
    (derive_week_starts [2, 11, 100]).length = 3 ∧
    (derive_week_starts [2, 11, 100]).getD 1 0 = align_to_monday 2 + 7 * 1 ∧
    (derive_week_starts [2, 11, 100]).getD 2 0
      - (derive_week_starts [2, 11, 100]).getD 1 0 = 7 ∧
    derive_week_starts [2, 5, 6] = derive_week_starts [2, 11, 100] := by
  have h := derive_week_starts_spec 2 [11, 100]
  refine ⟨h.1, h.2.1 1 (by decide), h.2.2.1 1 (by decide), h.2.2.2 [5, 6] (by decide)⟩

/-! ### Claim C8: plan progress percentage -/

theorem ppp_mid_nonneg (s e t : ℤ) (hst : s < t) :
    (0 : ℚ) ≤ ((t - s : ℤ) : ℚ) / ((max 1 (e - s + 1) : ℤ) : ℚ) * 100 := by
  have hnum : (0 : ℚ) ≤ ((t - s : ℤ) : ℚ) := by
    have h : (0 : ℤ) ≤ t - s := by omega
    exact_mod_cast h
  have hden : (0 : ℚ) < ((max 1 (e - s + 1) : ℤ) : ℚ) := by
    have h : (0 : ℤ) < max 1 (e - s + 1) := by omega
    exact_mod_cast h
  have := div_nonneg hnum hden.le
  nlinarith

theorem ppp_mid_le_100 (s e t : ℤ) (hte : t ≤ e) :
    ((t - s : ℤ) : ℚ) / ((max 1 (e - s + 1) : ℤ) : ℚ) * 100 ≤ 100 := by
  have hden : (0 : ℚ) < ((max 1 (e - s + 1) : ℤ) : ℚ) := by
    have h : (0 : ℤ) < max 1 (e - s + 1) := by omega
    exact_mod_cast h
  have hnum : ((t - s : ℤ) : ℚ) ≤ ((max 1 (e - s + 1) : ℤ) : ℚ) := by
    have h : (t - s : ℤ) ≤ max 1 (e - s + 1) := by omega
    exact_mod_cast h
  have hdivle : ((t - s : ℤ) : ℚ) / ((max 1 (e - s + 1) : ℤ) : ℚ) ≤ 1 :=
    (div_le_one hden).mpr hnum
  nlinarith

/-- Claim C8: with the plan interval fixed and `planEnd > planStart`,
`plan_progress_pct` is monotone in `today` (for `t1 ≤ t2`) and always
lies in `[0, 100]`. -/
theorem plan_progress_pct_spec (s e t1 t2 : ℤ) (hse : s < e) (h12 : t1 ≤ t2) :
    plan_progress_pct s e t1 ≤ plan_progress_pct s e t2 ∧
    0 ≤ plan_progress_pct s e t1 ∧ plan_progress_pct s e t1 ≤ 100 := by
  have hbounds : ∀ t : ℤ, 0 ≤ plan_progress_pct s e t ∧ plan_progress_pct s e t ≤ 100 := by
    intro t
    unfold plan_progress_pct
    split_ifs with h1 h2
    · norm_num
    · norm_num
    · exact ⟨ppp_mid_nonneg s e t (by omega), ppp_mid_le_100 s e t (by omega)⟩
  refine ⟨?_, (hbounds t1).1, (hbounds t1).2⟩
  have h0 := (hbounds t2).1
  have h100 := (hbounds t1).2
  have hmono : ((t1 - s : ℤ) : ℚ) / ((max 1 (e - s + 1) : ℤ) : ℚ) * 100
      ≤ ((t2 - s : ℤ) : ℚ) / ((max 1 (e - s + 1) : ℤ) : ℚ) * 100 := by
    have hden : (0 : ℚ) < ((max 1 (e - s + 1) : ℤ) : ℚ) := by
      have h : (0 : ℤ) < max 1 (e - s + 1) := by omega
      exact_mod_cast h
    have hnum : ((t1 - s : ℤ) : ℚ) ≤ ((t2 - s : ℤ) : ℚ) := by
      have h : (t1 - s : ℤ) ≤ t2 - s := by omega
      exact_mod_cast h
    have hdd := (div_le_div_iff_of_pos_right hden).mpr hnum
    exact mul_le_mul_of_nonneg_right hdd (by norm_num)
  unfold plan_progress_pct at h0 h100 ⊢
  split_ifs at h0 h100 ⊢ with ha hb hc hd he hf hg hh
  all_goals try omega
  all_goals try exact h0
  all_goals try exact h100
  all_goals try exact hmono

/-- Witness for C8 on the concrete plan `[0, 13]` at `t1 = 3 ≤ t2 = 5`. -/
theorem plan_progress_pct_spec_witness :
    plan_progress_pct 0 13 3 ≤ plan_progress_pct 0 13 5 ∧
    0 ≤ plan_progress_pct 0 13 3 ∧ plan_progress_pct 0 13 3 ≤ 100 :=
  plan_progress_pct_spec 0 13 3 5 (by decide) (by decide)

/-! ### Claim C2: the numeric-extraction rule -/

theorem rangeSearch_none_iff (s : Str) :
    rangeSearch s = none ↔ ∀ i, matchRangeAt (s.drop i) = none := by
  induction s with
  | nil =>
    constructor
    · intro _ i
      simp only [List.drop_nil]
      rfl
    · intro _
      rfl
  | cons c rest ih =>
    constructor
    · intro h i
      unfold rangeSearch at h
      cases hm : matchRangeAt (c :: rest) with
      | some p => rw [hm] at h; exact absurd h (by simp)
      | none =>
        rw [hm] at h
        cases i with
        | zero => exact hm
        | succ j => exact (ih.mp h) j
    · intro h
      unfold rangeSearch
      have h0 := h 0
      simp only [List.drop_zero] at h0
      rw [h0]
      exact ih.mpr (fun i => h (i + 1))

theorem rangeSearch_leftmost {s : Str} {p : ℚ × ℚ} (h : rangeSearch s = some p) :
    ∃ i, matchRangeAt (s.drop i) = some p ∧
      ∀ j, j < i → matchRangeAt (s.drop j) = none := by
  induction s with
  | nil => exact absurd h (by simp [rangeSearch])
  | cons c rest ih =>
    unfold rangeSearch at h
    cases hm : matchRangeAt (c :: rest) with
    | some q =>
      rw [hm] at h
      refine ⟨0, ?_, ?_⟩
      · simpa using hm.trans (by simpa using h)
      · intro j hj
        omega
    | none =>
      rw [hm] at h
      obtain ⟨i, hi, hmin⟩ := ih h
      refine ⟨i + 1, hi, ?_⟩
      intro j hj
      cases j with
      | zero => exact hm
      | succ j2 => exact hmin j2 (by omega)

/-- Claim C2: `extract_km` returns the arithmetic mean of the two bounds
of the (leftmost) low-high range pattern when one occurs anywhere in the
segment, and otherwise the sum of every standalone `<number>km`
occurrence; decimal numbers are accepted and a segment with no match
contributes 0, as the concrete evaluations show. -/
theorem extract_km_spec (s : Str) :
    ((∃ i, matchRangeAt (s.drop i) ≠ none) →
      ∃ i lo hi, matchRangeAt (s.drop i) = some (lo, hi) ∧
        (∀ j, j < i → matchRangeAt (s.drop j) = none) ∧
        extract_km s = (lo + hi) / 2) ∧
    ((∀ i, matchRangeAt (s.drop i) = none) → extract_km s = (findKm s).sum) ∧
    extract_km ("5-7km".data) = 6 ∧
    extract_km ("2.5km".data) = 5 / 2 ∧
    extract_km ("rest day".data) = 0 := by
  refine ⟨?_, ?_, ?_, ?_, ?_⟩
  · intro hex
    cases hr : rangeSearch s with
    | none =>
      obtain ⟨i, hi⟩ := hex
      exact absurd ((rangeSearch_none_iff s).mp hr i) hi
    | some p =>
      obtain ⟨lo, hi⟩ := p
      obtain ⟨i, hat, hmin⟩ := rangeSearch_leftmost hr
      exact ⟨i, lo, hi, hat, hmin, by unfold extract_km; rw [hr]⟩
  · intro hall
    have hr : rangeSearch s = none := (rangeSearch_none_iff s).mpr hall
    unfold extract_km
    rw [hr]
  · with_unfolding_all rfl
  · with_unfolding_all rfl
  · with_unfolding_all rfl

/-- Witness for C2: the range branch fires on `"5-7km"` and the sum
branch on `"rest day"`. -/
theorem extract_km_spec_witness :
    (∃ i lo hi, matchRangeAt (("5-7km".data).drop i) = some (lo, hi) ∧
      (∀ j, j < i → matchRangeAt (("5-7km".data).drop j) = none) ∧
      extract_km ("5-7km".data) = (lo + hi) / 2) ∧
    extract_km ("rest day".data) = (findKm ("rest day".data)).sum := by
  constructor
  · refine (extract_km_spec ("5-7km".data)).1 ⟨0, ?_⟩
    have h : matchRangeAt (("5-7km".data).drop 0) = some (5, 7) := by
      with_unfolding_all rfl
    rw [h]
    simp
  · refine (extract_km_spec ("rest day".data)).2.1 ?_
    refine (rangeSearch_none_iff ("rest day".data)).mp ?_
    with_unfolding_all rfl

/-! ### Claim C3: per-segment, per-discipline credit -/

theorem sd_foldl (parts : List Str) (acc : Distances) :
    parts.foldl sdStep acc =
      { swim := acc.swim + SWIM_DISTANCE_KM *
          (((activeSegs parts).filter (fun s => strContains s ("swim".data))).length : ℚ)
        bike := acc.bike +
          (((activeSegs parts).filter
              (fun s => strContains s ("bike".data) || strContains s ("cycle".data))).map
            extract_km).sum
        run := acc.run +
          (((activeSegs parts).filter (fun s => strContains s ("run".data))).map
            extract_km).sum } := by
  induction parts generalizing acc with
  | nil =>
    simp [activeSegs]
  | cons p parts ih =>
    rw [List.foldl_cons, ih]
    by_cases he : (stripStr p).isEmpty
    · have hstep : sdStep acc p = acc := by
        unfold sdStep
        simp [he]
      have hsegs : activeSegs (p :: parts) = activeSegs parts := by
        simp [activeSegs, he]
      rw [hstep, hsegs]
    · have hsegs : activeSegs (p :: parts) = stripStr p :: activeSegs parts := by
        simp [activeSegs, he]
      rw [hsegs]
      by_cases hsw : strContains (stripStr p) ("swim".data) <;>
        by_cases hbk : strContains (stripStr p) ("bike".data)
            || strContains (stripStr p) ("cycle".data) <;>
        by_cases hrn : strContains (stripStr p) ("run".data) <;>
        · unfold sdStep
          simp only [he, hsw, hbk, hrn, Bool.false_eq_true, if_true, if_false,
            List.filter_cons, Bool.true_eq_false, List.map_cons, List.sum_cons,
            List.length_cons, Distances.mk.injEq]
          try refine ⟨?_, ?_, ?_⟩
          all_goals push_cast
          all_goals ring

/-- Claim C3: the parser lowercases, splits on `+`, and for every
non-blank trimmed segment tests each discipline keyword independently:
a `swim` segment adds the fixed 2.0 km constant, a `bike`/`cycle`
segment adds its extracted kilometres to bike, a `run` segment adds its
extracted kilometres to run, and a segment naming several disciplines
credits every one of them, as the concrete multi-keyword evaluation
shows. -/
theorem session_distances_spec (t : Str) :
    session_distances t =
      { swim := SWIM_DISTANCE_KM *
          (((segmentsOf t).filter (fun s => strContains s ("swim".data))).length : ℚ)
        bike := (((segmentsOf t).filter
            (fun s => strContains s ("bike".data) || strContains s ("cycle".data))).map
          extract_km).sum
        run := (((segmentsOf t).filter (fun s => strContains s ("run".data))).map
          extract_km).sum } ∧
    session_distances ("Run and bike 10km".data) = { swim := 0, bike := 10, run := 10 } := by
  constructor
  · unfold session_distances segmentsOf
    rw [sd_foldl]
    simp
  · with_unfolding_all rfl

/-! ### Claim C7: cell-key injectivity and the normalization collision -/

theorem digitChar_inj : ∀ d1, d1 < 10 → ∀ d2, d2 < 10 →
    digitChar d1 = digitChar d2 → d1 = d2 := by
  decide

theorem digitChar_ne_underscore : ∀ d, d < 10 → digitChar d ≠ '_' := by
  decide

theorem map_digitChar_inj : ∀ (l1 l2 : List ℕ), (∀ x ∈ l1, x < 10) →
    (∀ x ∈ l2, x < 10) → l1.map digitChar = l2.map digitChar → l1 = l2 := by
  intro l1
  induction l1 with
  | nil =>
    intro l2 _ _ h
    cases l2 with
    | nil => rfl
    | cons c t => simp at h
  | cons c t ih =>
    intro l2 h1 h2 h
    cases l2 with
    | nil => simp at h
    | cons c2 t2 =>
      simp only [List.map_cons, List.cons.injEq] at h
      have hc : c = c2 :=
        digitChar_inj c (h1 c (by simp)) c2 (h2 c2 (by simp)) h.1
      have ht : t = t2 :=
        ih t2 (fun x hx => h1 x (by simp [hx])) (fun x hx => h2 x (by simp [hx])) h.2
      rw [hc, ht]

theorem natStr_inj {m n : ℕ} (h : natStr m = natStr n) : m = n := by
  have hlt : ∀ k : ℕ, ∀ x ∈ Nat.digits 10 k, x < 10 :=
    fun k x hx => Nat.digits_lt_base (by norm_num) hx
  by_cases hm : m = 0 <;> by_cases hn : n = 0
  · rw [hm, hn]
  · exfalso
    rw [hm] at h
    unfold natStr at h
    simp only [if_pos rfl, hn, if_neg hn] at h
    have hrev : (Nat.digits 10 n).map digitChar = ['0'] := by
      have := congrArg List.reverse h
      simpa using this.symm
    have hdig : Nat.digits 10 n = [0] := by
      cases hd : Nat.digits 10 n with
      | nil => rw [hd] at hrev; simp at hrev
      | cons d t =>
        rw [hd] at hrev
        cases t with
        | nil =>
          simp only [List.map_cons, List.map_nil, List.cons.injEq, and_true] at hrev
          have : d < 10 := hlt n d (by rw [hd]; simp)
          have hd0 : d = 0 := digitChar_inj d this 0 (by norm_num) (by simpa using hrev)
          rw [hd0]
        | cons d2 t2 => simp at hrev
    have := Nat.ofDigits_digits 10 n
    rw [hdig] at this
    simp [Nat.ofDigits] at this
    exact hn this.symm
  · exfalso
    rw [hn] at h
    unfold natStr at h
    simp only [if_pos rfl, hm, if_neg hm] at h
    have hrev : (Nat.digits 10 m).map digitChar = ['0'] := by
      have := congrArg List.reverse h
      simpa using this
    have hdig : Nat.digits 10 m = [0] := by
      cases hd : Nat.digits 10 m with
      | nil => rw [hd] at hrev; simp at hrev
      | cons d t =>
        rw [hd] at hrev
        cases t with
        | nil =>
          simp only [List.map_cons, List.map_nil, List.cons.injEq, and_true] at hrev
          have : d < 10 := hlt m d (by rw [hd]; simp)
          have hd0 : d = 0 := digitChar_inj d this 0 (by norm_num) (by simpa using hrev)
          rw [hd0]
        | cons d2 t2 => simp at hrev
    have := Nat.ofDigits_digits 10 m
    rw [hdig] at this
    simp [Nat.ofDigits] at this
    exact hm this.symm
  · unfold natStr at h
    simp only [hm, hn, if_neg hm, if_neg hn] at h
    have hmap : (Nat.digits 10 m).map digitChar = (Nat.digits 10 n).map digitChar := by
      have := congrArg List.reverse h
      simpa using this
    have hdig : Nat.digits 10 m = Nat.digits 10 n :=
      map_digitChar_inj _ _ (hlt m) (hlt n) hmap
    have h1 := Nat.ofDigits_digits 10 m
    have h2 := Nat.ofDigits_digits 10 n
    rw [hdig] at h1
    rw [h2] at h1
    exact h1.symm

theorem natStr_ne_underscore (n : ℕ) : ∀ c ∈ natStr n, c ≠ '_' := by
  intro c hc
  unfold natStr at hc
  by_cases hn : n = 0
  · rw [if_pos hn] at hc
    simp at hc
    rw [hc]
    decide
  · rw [if_neg hn] at hc
    rw [List.mem_reverse] at hc
    obtain ⟨d, hd, hdc⟩ := List.mem_map.mp hc
    have : d < 10 := Nat.digits_lt_base (by norm_num) hd
    rw [← hdc]
    exact digitChar_ne_underscore d this

theorem append_underscore_inj : ∀ (d1 d2 s1 s2 : Str), (∀ c ∈ d1, c ≠ '_') →
    (∀ c ∈ d2, c ≠ '_') → d1 ++ '_' :: s1 = d2 ++ '_' :: s2 → d1 = d2 ∧ s1 = s2 := by
  intro d1
  induction d1 with
  | nil =>
    intro d2 s1 s2 _ h2 h
    cases d2 with
    | nil => simpa using h
    | cons c t =>
      simp only [List.nil_append, List.cons_append, List.cons.injEq] at h
      exact absurd h.1.symm (h2 c (by simp))
  | cons c t ih =>
    intro d2 s1 s2 h1 h2 h
    cases d2 with
    | nil =>
      simp only [List.nil_append, List.cons_append, List.cons.injEq] at h
      exact absurd h.1 (h1 c (by simp))
    | cons c2 t2 =>
      simp only [List.cons_append, List.cons.injEq] at h
      obtain ⟨ht, hs⟩ := ih t2 s1 s2 (fun x hx => h1 x (by simp [hx]))
        (fun x hx => h2 x (by simp [hx])) h.2
      exact ⟨by rw [h.1, ht], hs⟩

theorem cellKey_fixed_inj (p : Str) (w1 w2 : ℕ) (s1 s2 : Str)
    (h : cellKey p w1 s1 = cellKey p w2 s2) : w1 = w2 ∧ s1 = s2 := by
  unfold cellKey at h
  have h2 := List.append_cancel_left h
  simp only [List.cons.injEq, true_and] at h2
  obtain ⟨hd, hs⟩ := append_underscore_inj (natStr w1) (natStr w2) s1 s2
    (natStr_ne_underscore w1) (natStr_ne_underscore w2) h2
  exact ⟨natStr_inj hd, hs⟩

theorem cellKey_cross_ne (w1 w2 : ℕ) (s1 s2 : Str) :
    cellKey ("completed".data) w1 s1 ≠ cellKey ("planned".data) w2 s2 := by
  intro h
  unfold cellKey at h
  have hc : "completed".data = ['c', 'o', 'm', 'p', 'l', 'e', 't', 'e', 'd'] := rfl
  have hp : "planned".data = ['p', 'l', 'a', 'n', 'n', 'e', 'd'] := rfl
  rw [hc, hp] at h
  simp at h

/-- Claim C7: the key former `prefix_weekIdx_slug` is injective over all
triples (prefix in completed/planned, week index, normalized name), the
source key functions are instances of it with the lowercase
space-to-underscore slug, and case/space normalization makes
`("completed", 3, "Session 1")` and `("completed", 3, "session_1")`
collide. -/
theorem cellKey_spec :
    (∀ p1 p2 : Str, (p1 = "completed".data ∨ p1 = "planned".data) →
      (p2 = "completed".data ∨ p2 = "planned".data) →
      ∀ w1 w2 : ℕ, ∀ s1 s2 : Str, cellKey p1 w1 s1 = cellKey p2 w2 s2 →
        p1 = p2 ∧ w1 = w2 ∧ s1 = s2) ∧
    (∀ w col, completion_key w col = cellKey ("completed".data) w (slugOf col) ∧
      planned_key w col = cellKey ("planned".data) w (slugOf col)) ∧
    completion_key 3 ("Session 1".data) = completion_key 3 ("session_1".data) := by
  refine ⟨?_, fun w col => ⟨rfl, rfl⟩, by with_unfolding_all rfl⟩
  rintro p1 p2 (rfl | rfl) (rfl | rfl) w1 w2 s1 s2 h
  · exact ⟨rfl, cellKey_fixed_inj _ _ _ _ _ h⟩
  · exact absurd h (cellKey_cross_ne w1 w2 s1 s2)
  · exact absurd h.symm (cellKey_cross_ne w2 w1 s2 s1)
  · exact ⟨rfl, cellKey_fixed_inj _ _ _ _ _ h⟩

/-- Witness for C7: the injectivity conclusion at two concrete equal
completed-keys, with hypotheses discharged concretely. -/
theorem cellKey_spec_witness :
    ("completed".data : Str) = "completed".data ∧ (3 : ℕ) = 3 ∧
      ("session_1".data : Str) = "session_1".data :=
  cellKey_spec.1 ("completed".data) ("completed".data) (Or.inl rfl) (Or.inl rfl)
    3 3 ("session_1".data) ("session_1".data) rfl

/-! ### Claim C1: aggregation classifies every cell exactly one way -/

/-- A plan cell: week index, the row's column-to-text mapping, and the
session column name. -/
abbrev Cell := ℕ × List (Str × Str) × Str

/-- All plan cells in loop order. -/
def cellsOf (rows : List (List (Str × Str))) (cols : List Str) : List Cell :=
  rows.enum.flatMap (fun wr => cols.map (fun col => (wr.1, wr.2, col)))

/-- The completion flag the loop reads for a cell. -/
def isDone (ss : List (Str × Json)) (c : Cell) : Bool :=
  truthy (ssGet ss (completion_key c.1 c.2.2) (Json.bool false))

/-- The cell's week end, `week_start + 6`. -/
def cellWeekEnd (weekStarts : List ℤ) (c : Cell) : ℤ :=
  weekStarts.getD c.1 0 + 6

/-- The cell's session text. -/
def cellText (c : Cell) : Str :=
  sessionTextOf c.2.1 c.2.2

theorem aggregate_flatten (rows : List (List (Str × Str))) (weekStarts : List ℤ)
    (cols : List Str) (ss : List (Str × Json)) (today : ℤ) :
    aggregate rows weekStarts cols ss today =
      (cellsOf rows cols).foldl
        (fun st c => aggCell ss today (weekStarts.getD c.1 0) c.1 c.2.1 c.2.2 st)
        ⟨0, 0, 0, 0, 0, 0⟩ := by
  unfold aggregate cellsOf
  generalize rows.enum = l
  generalize (⟨0, 0, 0, 0, 0, 0⟩ : Stats) = st
  induction l generalizing st with
  | nil => rfl
  | cons wr l ih =>
    rw [List.flatMap_cons, List.foldl_append, List.foldl_cons, ih, List.foldl_map]

theorem three_way_partition {α : Type} (l : List α) (p q : α → Bool) :
    l.length = (l.filter p).length + (l.filter (fun a => !p a && q a)).length
      + (l.filter (fun a => !p a && !q a)).length := by
  induction l with
  | nil => simp
  | cons a t ih =>
    by_cases hp : p a <;> by_cases hq : q a <;> simp [hp, hq] <;> omega

theorem agg_foldl_fields (ss : List (Str × Json)) (today : ℤ) (weekStarts : List ℤ) :
    ∀ (cells : List Cell) (st : Stats),
      cells.foldl
        (fun st c => aggCell ss today (weekStarts.getD c.1 0) c.1 c.2.1 c.2.2 st) st =
      { completed := st.completed + (cells.filter (fun c => isDone ss c)).length
        missed := st.missed + (cells.filter
            (fun c => !isDone ss c && decide (cellWeekEnd weekStarts c < today))).length
        swim := st.swim + ((cells.filter (fun c => isDone ss c)).map
            (fun c => (session_distances (cellText c)).swim)).sum
        bike := st.bike + ((cells.filter (fun c => isDone ss c)).map
            (fun c => (session_distances (cellText c)).bike)).sum
        run := st.run + ((cells.filter (fun c => isDone ss c)).map
            (fun c => (session_distances (cellText c)).run)).sum
        gym := st.gym + (cells.filter (fun c => isDone ss c
            && strContains (lowerStr (cellText c)) ("gym".data))).length } := by
  intro cells
  induction cells with
  | nil =>
    intro st
    simp
  | cons c t ih =>
    intro st
    rw [List.foldl_cons, ih]
    by_cases hd : isDone ss c
    · by_cases hg : strContains (lowerStr (cellText c)) ("gym".data)
      · have hstep : aggCell ss today (weekStarts.getD c.1 0) c.1 c.2.1 c.2.2 st =
            { completed := st.completed + 1, missed := st.missed,
              swim := st.swim + (session_distances (cellText c)).swim,
              bike := st.bike + (session_distances (cellText c)).bike,
              run := st.run + (session_distances (cellText c)).run,
              gym := st.gym + 1 } := by
          unfold aggCell
          unfold isDone at hd
          unfold cellText at hg ⊢
          simp [hd, hg]
        rw [hstep]
        simp [List.filter_cons, hd, hg, Stats.mk.injEq]
        try (repeat' apply And.intro)
        all_goals try rfl
        all_goals try omega
        all_goals try ring
      · have hstep : aggCell ss today (weekStarts.getD c.1 0) c.1 c.2.1 c.2.2 st =
            { completed := st.completed + 1, missed := st.missed,
              swim := st.swim + (session_distances (cellText c)).swim,
              bike := st.bike + (session_distances (cellText c)).bike,
              run := st.run + (session_distances (cellText c)).run,
              gym := st.gym } := by
          unfold aggCell
          unfold isDone at hd
          unfold cellText at hg ⊢
          simp [hd, hg]
        rw [hstep]
        simp [List.filter_cons, hd, hg, Stats.mk.injEq]
        try (repeat' apply And.intro)
        all_goals try rfl
        all_goals try omega
        all_goals try ring
    · by_cases hw : cellWeekEnd weekStarts c < today
      · have hstep : aggCell ss today (weekStarts.getD c.1 0) c.1 c.2.1 c.2.2 st =
            { st with missed := st.missed + 1 } := by
          unfold aggCell
          unfold isDone at hd
          unfold cellWeekEnd at hw
          rw [List.getD_eq_getElem?_getD] at hw
          simp [hd, hw]
        rw [hstep]
        simp [List.filter_cons, hd, hw, Stats.mk.injEq]
        try (repeat' apply And.intro)
        all_goals try rfl
        all_goals try omega
        all_goals try ring
      · have hstep : aggCell ss today (weekStarts.getD c.1 0) c.1 c.2.1 c.2.2 st = st := by
          unfold aggCell
          unfold isDone at hd
          unfold cellWeekEnd at hw
          rw [List.getD_eq_getElem?_getD] at hw
          simp [hd, hw]
        rw [hstep]
        simp [List.filter_cons, hd, hw, Stats.mk.injEq]

/-- Claim C1: the aggregation loop classifies every plan cell exactly
one of three ways — completed cells are counted, their parsed distances
added per discipline and gym mentions counted; non-completed cells of
strictly past weeks are counted missed; all other cells contribute to
neither count and no total — so the three classes partition the cells. -/
theorem aggregate_spec (rows : List (List (Str × Str))) (weekStarts : List ℤ)
    (cols : List Str) (ss : List (Str × Json)) (today : ℤ) :
    aggregate rows weekStarts cols ss today =
      { completed := ((cellsOf rows cols).filter (fun c => isDone ss c)).length
        missed := ((cellsOf rows cols).filter
            (fun c => !isDone ss c && decide (cellWeekEnd weekStarts c < today))).length
        swim := (((cellsOf rows cols).filter (fun c => isDone ss c)).map
            (fun c => (session_distances (cellText c)).swim)).sum
        bike := (((cellsOf rows cols).filter (fun c => isDone ss c)).map
            (fun c => (session_distances (cellText c)).bike)).sum
        run := (((cellsOf rows cols).filter (fun c => isDone ss c)).map
            (fun c => (session_distances (cellText c)).run)).sum
        gym := ((cellsOf rows cols).filter (fun c => isDone ss c
            && strContains (lowerStr (cellText c)) ("gym".data))).length } ∧
    (cellsOf rows cols).length =
      ((cellsOf rows cols).filter (fun c => isDone ss c)).length
        + ((cellsOf rows cols).filter
            (fun c => !isDone ss c && decide (cellWeekEnd weekStarts c < today))).length
        + ((cellsOf rows cols).filter
            (fun c => !isDone ss c && !decide (cellWeekEnd weekStarts c < today))).length := by
  constructor
  · rw [aggregate_flatten, agg_foldl_fields]
    simp
  · exact three_way_partition (cellsOf rows cols) (fun c => isDone ss c)
      (fun c => decide (cellWeekEnd weekStarts c < today))

/-! ### Claim C4: loading a malformed state file -/

/-- Counterexample to C4 as stated: a state file holding the valid JSON
document `[]` makes `load_state` raise (`data.get` on a list is an
uncaught `AttributeError`) instead of yielding empty state. -/
theorem load_state_nonobject_counterexample :
    load_state (some (Json.arr [])) = Except.error () := rfl

/-- Claim C4 (amended): a missing/unreadable/non-JSON file or a JSON
*object* envelope never fails — in particular any version mismatch
yields empty state — but a valid-JSON non-object envelope raises an
uncaught `AttributeError`. -/
theorem load_state_spec :
    load_state none = Except.ok (Json.obj []) ∧
    (∀ fields : List (Str × Json),
      ¬ versionMatches (fields.lookup ("version".data)) = true →
      load_state (some (Json.obj fields)) = Except.ok (Json.obj [])) ∧
    (∀ fields : List (Str × Json),
      ∃ st, load_state (some (Json.obj fields)) = Except.ok st) ∧
    (∀ j : Json, (∀ fields, j ≠ Json.obj fields) →
      load_state (some j) = Except.error ()) := by
  have hred : ∀ fields : List (Str × Json),
      load_state (some (Json.obj fields)) =
        if versionMatches (fields.lookup ("version".data)) = true then
          Except.ok ((fields.lookup ("state".data)).getD (Json.obj []))
        else Except.ok (Json.obj []) := fun fields => rfl
  refine ⟨rfl, ?_, ?_, ?_⟩
  · intro fields h
    rw [hred fields, if_neg h]
  · intro fields
    rw [hred fields]
    by_cases h : versionMatches (fields.lookup ("version".data)) = true
    · rw [if_pos h]
      exact ⟨_, rfl⟩
    · rw [if_neg h]
      exact ⟨_, rfl⟩
  · intro j hj
    cases j with
    | null => rfl
    | bool b => rfl
    | num q => rfl
    | str s => rfl
    | arr xs => rfl
    | obj fields => exact absurd rfl (hj fields)

/-- Witness for C4 (amended): a version-mismatched object envelope
loads as empty state; the JSON document `[]` raises. -/
theorem load_state_spec_witness :
    load_state (some (Json.obj [("version".data, Json.str ("x".data))]))
      = Except.ok (Json.obj []) ∧
    load_state (some (Json.arr [])) = Except.error () := by
  constructor
  · exact load_state_spec.2.1 [("version".data, Json.str ("x".data))]
      (by with_unfolding_all decide)
  · exact load_state_spec.2.2.2 (Json.arr []) (fun fields h => Json.noConfusion h)

/-! ### Claim C9: serialize-then-deserialize round trip -/

theorem completed_not_planned {k : Str}
    (h : ("completed_".data).isPrefixOf k = true) :
    ("planned_".data).isPrefixOf k = false := by
  cases k with
  | nil => simp [List.isPrefixOf] at h
  | cons a t =>
    have hc : "completed_".data = 'c' :: "ompleted_".data := rfl
    have hp : "planned_".data = 'p' :: "lanned_".data := rfl
    rw [hc, List.isPrefixOf_cons₂] at h
    rw [hp, List.isPrefixOf_cons₂]
    simp only [Bool.and_eq_true, beq_iff_eq] at h
    simp [← h.1]

theorem planned_not_completed {k : Str}
    (h : ("planned_".data).isPrefixOf k = true) :
    ("completed_".data).isPrefixOf k = false := by
  cases k with
  | nil => simp [List.isPrefixOf] at h
  | cons a t =>
    have hc : "completed_".data = 'c' :: "ompleted_".data := rfl
    have hp : "planned_".data = 'p' :: "lanned_".data := rfl
    rw [hp, List.isPrefixOf_cons₂] at h
    rw [hc, List.isPrefixOf_cons₂]
    simp only [Bool.and_eq_true, beq_iff_eq] at h
    simp [← h.1]

theorem load_save (todayIso : Str) (state : List (Str × Json)) :
    load_state (some (save_payload todayIso state)) = Except.ok (Json.obj state) := by
  with_unfolding_all rfl

/-- Claim C9: serializing a completion map (all keys `completed_`-
prefixed, boolean values) and a planned map (all keys `planned_`-
prefixed, string values) into the versioned envelope and deserializing
— version check, take the state, split by key prefix — reconstructs
both maps exactly. -/
theorem serialize_roundtrip (todayIso : Str) (c p : List (Str × Json))
    (hc : ∀ kv ∈ c, ("completed_".data).isPrefixOf kv.1 = true ∧ ∃ b, kv.2 = Json.bool b)
    (hp : ∀ kv ∈ p, ("planned_".data).isPrefixOf kv.1 = true ∧ ∃ s, kv.2 = Json.str s) :
    deserialize (some (save_payload todayIso (c ++ p))) = Except.ok (c, p) := by
  have hload := load_save todayIso (c ++ p)
  have hdes : deserialize (some (save_payload todayIso (c ++ p)))
      = Except.ok (splitState (c ++ p)) := by
    unfold deserialize
    rw [hload]
  rw [hdes]
  have hsplit : splitState (c ++ p) = (c, p) := by
    unfold splitState
    rw [List.filter_append, List.filter_append]
    have hc1 : c.filter (fun kv => ("completed_".data).isPrefixOf kv.1) = c :=
      List.filter_eq_self.mpr (fun kv hkv => (hc kv hkv).1)
    have hp1 : p.filter (fun kv => ("completed_".data).isPrefixOf kv.1) = [] :=
      List.filter_eq_nil_iff.mpr (fun kv hkv => by
        simp [planned_not_completed (hp kv hkv).1])
    have hc2 : c.filter (fun kv => ("planned_".data).isPrefixOf kv.1) = [] :=
      List.filter_eq_nil_iff.mpr (fun kv hkv => by
        simp [completed_not_planned (hc kv hkv).1])
    have hp2 : p.filter (fun kv => ("planned_".data).isPrefixOf kv.1) = p :=
      List.filter_eq_self.mpr (fun kv hkv => (hp kv hkv).1)
    rw [hc1, hp1, hc2, hp2]
    simp
  rw [hsplit]

/-- Witness for C9 with a one-entry completion map and a one-entry
planned map. -/
theorem serialize_roundtrip_witness :
    deserialize (some (save_payload ("2024-06-01".data)
        ([(("completed_0_session_1").data, Json.bool true)]
          ++ [(("planned_0_session_1").data, Json.str ("2024-01-01".data))])))
      = Except.ok ([(("completed_0_session_1").data, Json.bool true)],
          [(("planned_0_session_1").data, Json.str ("2024-01-01".data))]) := by
  refine serialize_roundtrip ("2024-06-01".data) _ _ ?_ ?_
  · intro kv hkv
    simp only [List.mem_singleton] at hkv
    rw [hkv]
    exact ⟨by with_unfolding_all rfl, true, rfl⟩
  · intro kv hkv
    simp only [List.mem_singleton] at hkv
    rw [hkv]
    exact ⟨by with_unfolding_all rfl, "2024-01-01".data, rfl⟩

/-! ### Claim C10: exactly the plan-derived keys present in session
state are persisted -/

/-- The (zero, one or two) entries the persist loop emits for one
`(week index, session column)` cell. -/
def psEntries (ss : List (Str × Json)) (week_idx : ℕ) (session_col : Str) :
    List (Str × Json) :=
  (match ss.lookup (completion_key week_idx session_col) with
   | some v => [(completion_key week_idx session_col, Json.bool (truthy v))]
   | none => []) ++
  (match ss.lookup (planned_key week_idx session_col) with
   | some v => [(planned_key week_idx session_col, v)]
   | none => [])

theorem persisted_state_flatten (nWeeks : ℕ) (session_cols : List Str)
    (ss : List (Str × Json)) :
    persisted_state nWeeks session_cols ss =
      (List.range nWeeks).flatMap
        (fun w => session_cols.flatMap (fun col => psEntries ss w col)) := by
  have hstep : ∀ (w : ℕ) (col : Str) (acc2 : List (Str × Json)),
      (let ck := completion_key w col
       let acc1 :=
         match ss.lookup ck with
         | some v => acc2 ++ [(ck, Json.bool (truthy v))]
         | none => acc2
       let pk := planned_key w col
       match ss.lookup pk with
       | some v => acc1 ++ [(pk, v)]
       | none => acc1) = acc2 ++ psEntries ss w col := by
    intro w col acc2
    unfold psEntries
    cases hck : ss.lookup (completion_key w col) <;>
      cases hpk : ss.lookup (planned_key w col) <;>
      simp [hck, hpk]
  have hinner : ∀ (cols : List Str) (w : ℕ) (acc : List (Str × Json)),
      cols.foldl
        (fun acc session_col =>
          let ck := completion_key w session_col
          let acc1 :=
            match ss.lookup ck with
            | some v => acc ++ [(ck, Json.bool (truthy v))]
            | none => acc
          let pk := planned_key w session_col
          match ss.lookup pk with
          | some v => acc1 ++ [(pk, v)]
          | none => acc1)
        acc = acc ++ cols.flatMap (fun col => psEntries ss w col) := by
    intro cols w
    induction cols with
    | nil =>
      intro acc
      simp
    | cons col cols ih =>
      intro acc
      rw [List.foldl_cons, ih, List.flatMap_cons]
      rw [hstep w col acc, List.append_assoc]
  have houter : ∀ (l : List ℕ) (acc : List (Str × Json)),
      l.foldl
        (fun acc week_idx =>
          session_cols.foldl
            (fun acc session_col =>
              let ck := completion_key week_idx session_col
              let acc1 :=
                match ss.lookup ck with
                | some v => acc ++ [(ck, Json.bool (truthy v))]
                | none => acc
              let pk := planned_key week_idx session_col
              match ss.lookup pk with
              | some v => acc1 ++ [(pk, v)]
              | none => acc1)
            acc)
        acc = acc ++ l.flatMap
          (fun w => session_cols.flatMap (fun col => psEntries ss w col)) := by
    intro l
    induction l with
    | nil =>
      intro acc
      simp
    | cons w l ih =>
      intro acc
      rw [List.foldl_cons, ih, List.flatMap_cons, hinner session_cols w acc,
        List.append_assoc]
  unfold persisted_state
  rw [houter]
  simp

theorem psEntries_fst_mem (ss : List (Str × Json)) (w : ℕ) (col : Str) (k : Str) :
    (k ∈ (psEntries ss w col).map Prod.fst) ↔
      ((k = completion_key w col ∨ k = planned_key w col) ∧
        (ss.lookup k).isSome = true) := by
  unfold psEntries
  cases hck : ss.lookup (completion_key w col) with
  | none =>
    cases hpk : ss.lookup (planned_key w col) with
    | none =>
      simp only [List.append_nil, List.map_nil, List.not_mem_nil, false_iff]
      rintro ⟨hk | hk, hs⟩ <;> rw [hk] at hs
      · rw [hck] at hs; simp at hs
      · rw [hpk] at hs; simp at hs
    | some v =>
      simp only [List.nil_append, List.map_cons, List.map_nil, List.mem_singleton]
      constructor
      · intro hk
        exact ⟨Or.inr hk, by rw [hk, hpk]; rfl⟩
      · rintro ⟨hk | hk, hs⟩
        · rw [hk, hck] at hs; simp at hs
        · exact hk
  | some v =>
    cases hpk : ss.lookup (planned_key w col) with
    | none =>
      simp only [List.append_nil, List.map_cons, List.map_nil, List.mem_singleton]
      constructor
      · intro hk
        exact ⟨Or.inl hk, by rw [hk, hck]; rfl⟩
      · rintro ⟨hk | hk, hs⟩
        · exact hk
        · rw [hk, hpk] at hs; simp at hs
    | some v2 =>
      simp only [List.map_append, List.map_cons, List.map_nil, List.mem_append,
        List.mem_singleton]
      constructor
      · rintro (hk | hk)
        · exact ⟨Or.inl hk, by rw [hk, hck]; rfl⟩
        · exact ⟨Or.inr hk, by rw [hk, hpk]; rfl⟩
      · rintro ⟨hk, _⟩
        exact hk

theorem completion_key_head (w : ℕ) (col : Str) :
    (completion_key w col).head? = some 'c' := rfl

theorem planned_key_head (w : ℕ) (col : Str) :
    (planned_key w col).head? = some 'p' := rfl

/-- Claim C10: a key appears in the saved state exactly when it is the
completion or planned key of some cell of the current plan grid and is
present in session state; in particular `state_loaded` (and any other
key not derived from the grid, such as stale entries for vanished weeks
or columns, or purely widget-owned keys) is never persisted. -/
theorem persisted_state_spec (nWeeks : ℕ) (session_cols : List Str)
    (ss : List (Str × Json)) :
    (∀ k : Str, (k ∈ (persisted_state nWeeks session_cols ss).map Prod.fst) ↔
      ((∃ w, w < nWeeks ∧ ∃ col ∈ session_cols,
          (k = completion_key w col ∨ k = planned_key w col)) ∧
        (ss.lookup k).isSome = true)) ∧
    ("state_loaded".data ∉ (persisted_state nWeeks session_cols ss).map Prod.fst) := by
  have hmem : ∀ k : Str, (k ∈ (persisted_state nWeeks session_cols ss).map Prod.fst) ↔
      ((∃ w, w < nWeeks ∧ ∃ col ∈ session_cols,
          (k = completion_key w col ∨ k = planned_key w col)) ∧
        (ss.lookup k).isSome = true) := by
    intro k
    rw [persisted_state_flatten, List.map_flatMap]
    simp only [List.mem_flatMap, List.mem_range, List.map_flatMap]
    constructor
    · rintro ⟨w, hw, hk⟩
      obtain ⟨col, hcol, hk⟩ := hk
      obtain ⟨hkey, hsome⟩ := (psEntries_fst_mem ss w col k).mp hk
      exact ⟨⟨w, hw, col, hcol, hkey⟩, hsome⟩
    · rintro ⟨⟨w, hw, col, hcol, hkey⟩, hsome⟩
      exact ⟨w, hw, col, hcol, (psEntries_fst_mem ss w col k).mpr ⟨hkey, hsome⟩⟩
  refine ⟨hmem, ?_⟩
  intro hin
  obtain ⟨⟨w, _, col, _, hkey⟩, _⟩ := (hmem ("state_loaded".data)).mp hin
  have hs : ("state_loaded".data).head? = some 's' := rfl
  cases hkey with
  | inl h => rw [h, completion_key_head] at hs; simp at hs
  | inr h => rw [h, planned_key_head] at hs; simp at hs

/-- Witness for C10: with one week, one column and a session state
holding a completion flag, a planned day, the widget key and
`state_loaded`, exactly the two cell keys present in session state are
persisted and `state_loaded` is not. -/
theorem persisted_state_spec_witness :
    (("completed_0_session_1".data ∈
        (persisted_state 1 [("Session 1".data)]
          [(("completed_0_session_1").data, Json.bool true),
           (("planned_0_session_1_select").data, Json.str ("Unplanned".data)),
           (("state_loaded").data, Json.bool true)]).map Prod.fst) ↔
      ((∃ w, w < 1 ∧ ∃ col ∈ [("Session 1".data)],
          ("completed_0_session_1".data = completion_key w col ∨
            "completed_0_session_1".data = planned_key w col)) ∧
        (([(("completed_0_session_1").data, Json.bool true),
           (("planned_0_session_1_select").data, Json.str ("Unplanned".data)),
           (("state_loaded").data, Json.bool true)] :
            List (Str × Json)).lookup ("completed_0_session_1".data)).isSome = true)) ∧
    ("state_loaded".data ∉
      (persisted_state 1 [("Session 1".data)]
        [(("completed_0_session_1").data, Json.bool true),
         (("planned_0_session_1_select").data, Json.str ("Unplanned".data)),
         (("state_loaded").data, Json.bool true)]).map Prod.fst) := by
  have h := persisted_state_spec 1 [("Session 1".data)]
    [(("completed_0_session_1").data, Json.bool true),
     (("planned_0_session_1_select").data, Json.str ("Unplanned".data)),
     (("state_loaded").data, Json.bool true)]
  exact ⟨h.1 ("completed_0_session_1".data), h.2⟩
